import Mathlib

/-
Verification of the backend access layer (biothings/utils/backend.py).

The Python module is shallowly embedded: Python dicts become insertion-ordered
association lists with unique keys, documents are string-keyed dicts of dynamic
values, and each backend class becomes a set of pure functions over an explicit
state (the in-memory target dict, the document-store collection, the search
index, or the replicated-store database plus its local document cache).
Fallible operations return Except or Option. Behaviour of the external store
drivers (the document-database driver, the search-index client, the replicated
store client) is embedded from their documented contracts where a claim
depends on it; each such place is marked in a comment.
-/

/-- Dynamic (schema-less) values stored in documents: integers, strings,
lists, and nested string-keyed dictionaries. -/
inductive Val where
  | vnat  : Nat → Val
  | vstr  : String → Val
  | vlist : List Val → Val
  | vdict : List (String × Val) → Val

/-- A document: a Python dict with string keys, modelled as an
insertion-ordered association list (unique keys maintained by pySet). -/
abbrev Doc := List (String × Val)

mutual
/-- Structural equality test on dynamic values (Python == on these types). -/
def valBeq : Val → Val → Bool
  | .vnat a, .vnat b => a == b
  | .vstr a, .vstr b => a == b
  | .vlist as, .vlist bs => valListBeq as bs
  | .vdict as, .vdict bs => valDictBeq as bs
  | _, _ => false
def valListBeq : List Val → List Val → Bool
  | [], [] => true
  | a :: as, b :: bs => valBeq a b && valListBeq as bs
  | _, _ => false
def valDictBeq : List (String × Val) → List (String × Val) → Bool
  | [], [] => true
  | (ka, va) :: as, (kb, vb) :: bs => ka == kb && valBeq va vb && valDictBeq as bs
  | _, _ => false
end

/-- Lookup in an association list, with the key-equality test supplied
explicitly (first matching entry wins; a dict built by alSet has unique keys,
so first and only). -/
def alGet {κ α : Type} (eqk : κ → κ → Bool) : List (κ × α) → κ → Option α
  | [], _ => none
  | (k, v) :: l, key => if eqk k key then some v else alGet eqk l key

/-- Python dict assignment d[key] = val: replace the value in place when the
key is present (keeping insertion order), else append the new entry. -/
def alSet {κ α : Type} (eqk : κ → κ → Bool) : List (κ × α) → κ → α → List (κ × α)
  | [], key, val => [(key, val)]
  | (k, v) :: l, key, val =>
      if eqk k key then (k, val) :: l else (k, v) :: alSet eqk l key val

/-- String key equality used by documents (Python string ==). -/
def strBeq (a b : String) : Bool := a == b

/-- Python d.get(key) / d.get(key, None) on a document. -/
def pyGet (d : Doc) (k : String) : Option Val := alGet strBeq d k

/-- Python d[key] = val on a document. -/
def pySet (d : Doc) (k : String) (v : Val) : Doc := alSet strBeq d k v

/-- Python d.update(e): fold the entries of e into d, overwriting existing
keys in place and appending new ones in order. -/
def pyUpdate (d e : Doc) : Doc := e.foldl (fun acc kv => pySet acc kv.1 kv.2) d

/-- Python dict(list-of-pairs): build a dict from pairs, later duplicate keys
overwriting earlier values. -/
def dictOfPairs (l : List (String × Val)) : Doc := pyUpdate [] l

/-- Python truthiness of a dynamic value (0, empty string, empty list and
empty dict are falsy). -/
def pyTruthy : Val → Bool
  | .vnat n => n != 0
  | .vstr s => !s.isEmpty
  | .vlist l => !l.isEmpty
  | .vdict d => !d.isEmpty

/-- The "_id" field of a document. -/
def idOfDoc (d : Doc) : Option Val := pyGet d "_id"

/-- Does document d match the query filter on _id equal to idv
(docs lacking an _id match nothing). -/
def docMatchesId (idv : Val) (d : Doc) : Bool :=
  match idOfDoc d with
  | some v => valBeq v idv
  | none => false

/-- Does document d match an $in query over the id list ids. -/
def docMatchesIn (ids : List Val) (d : Doc) : Bool :=
  match idOfDoc d with
  | some v => ids.any (fun i => valBeq v i)
  | none => false

namespace DocMongoBackend

/-- The target collection: the documents it holds, in insertion order.
The store enforces _id uniqueness for well-formed collections. -/
abbrev Coll := List Doc

/-- An update document as built by update_diff: an optional $set payload and
an optional $unset payload. -/
structure UpdateDoc where
  set? : Option Doc
  unset? : Option Doc

/-- True when the update document carries no operator at all (the empty
Python dict). -/
def UpdateDoc.isEmptyUpd (u : UpdateDoc) : Bool := u.set?.isNone && u.unset?.isNone

/-- Server-side effect of one update document on one matched document:
$set merges its fields in, then $unset removes the named fields. -/
def applyUpdateDoc (u : UpdateDoc) (d : Doc) : Doc :=
  let d1 := match u.set? with
    | some s => pyUpdate d s
    | none => d
  match u.unset? with
  | some uns => uns.foldl (fun acc kv => acc.filter (fun f => f.1 != kv.1)) d1
  | none => d1

/-- Apply f to the first document satisfying p, leaving the rest untouched;
also report the modified count (1 when the rewritten document differs from
the original, as the store counts only real modifications). -/
def updateFirst (p : Doc → Bool) (f : Doc → Doc) : List Doc → List Doc × Nat
  | [] => ([], 0)
  | d :: ds =>
      if p d then ((f d) :: ds, if valDictBeq (f d) d then 0 else 1)
      else
        let r := updateFirst p f ds
        (d :: r.1, r.2)

/-- Driver/server contract of update_one with upsert False, embedded from the
documented behaviour of the document-store driver: an empty update document
is rejected client-side with ValueError, otherwise at most the first document
matching the _id filter is rewritten and the modified count is returned. -/
def update_one (coll : Coll) (idv : Val) (u : UpdateDoc) : Except String (Coll × Nat) :=
  if u.isEmptyUpd then Except.error "update only works with $ operators"
  else Except.ok (updateFirst (docMatchesId idv) (applyUpdateDoc u) coll)

/-- A diff as produced by diff.diff_doc: the target _id, the add and update
field maps, and the list of field names to delete. -/
structure Diff where
  _id : Val
  add : Doc
  update : Doc
  delete : List String

/-- DocMongoBackend.update_diff: merge diff.add and diff.update into one
overwrite set, fold extra in when given, emit it as $set; emit $unset from
diff.delete when non-empty; run update_one on the document whose _id equals
the _id of the diff, never upserting; return the modified count (the new
collection is threaded through for state passing). -/
def update_diff (coll : Coll) (diff : Diff) (extra : Doc) : Except String (Coll × Nat) :=
  let _add_d := dictOfPairs (diff.add ++ diff.update)
  let set? : Option Doc :=
    if !_add_d.isEmpty || !extra.isEmpty then
      some (if !extra.isEmpty then pyUpdate _add_d extra else _add_d)
    else none
  let unset? : Option Doc :=
    if !diff.delete.isEmpty then
      some (dictOfPairs (diff.delete.map (fun x => (x, Val.vnat 1))))
    else none
  update_one coll diff._id ⟨set?, unset?⟩

/-- DocMongoBackend.get_from_id: find_one on the _id filter. -/
def get_from_id (coll : Coll) (idv : Val) : Option Doc :=
  coll.find? (docMatchesId idv)

/-- Python dict(list-of-pairs) with document-id keys, used by mget_from_ids. -/
def dictOfPairsV (l : List (Val × Doc)) : List (Val × Doc) :=
  l.foldl (fun acc kv => alSet valBeq acc kv.1 kv.2) []

/-- DocMongoBackend.mget_from_ids: query all documents whose _id is in ids
(store order), index them by _id in a dict, then walk the input ids in order,
keeping the docs found and dropping ids with no match. The asiter flag wraps
the result in an iterator over the same element sequence, so the element
sequence returned is the same either way. -/
def mget_from_ids (coll : Coll) (ids : List Val) (asiter : Bool) : List Doc :=
  let cur := coll.filter (docMatchesIn ids)
  let _d := dictOfPairsV (cur.filterMap (fun d => (idOfDoc d).map (fun v => (v, d))))
  let doc_li := ids.filterMap (fun i => alGet valBeq _d i)
  if asiter then doc_li else doc_li

/-- Reference form of the mget_from_ids contract, written from the
specification text: the matching documents reordered to the input ids order,
ids with no matching document omitted. -/
def mgetSpec (coll : Coll) (ids : List Val) : List Doc :=
  ids.filterMap (fun i => coll.find? (docMatchesId i))

/-- Is there already a document in coll with the same _id as d (the
duplicate-key condition of the ordered multi-document insert). -/
def hasDupIdIn (coll : Coll) (d : Doc) : Bool :=
  match idOfDoc d with
  | some v => coll.any (docMatchesId v)
  | none => false

/-- Driver contract of insert_many (ordered): insert the documents one by
one, stopping with a duplicate-key error at the first document whose _id is
already present; on success report how many ids were inserted. The collection
reached so far is returned in both cases. -/
def insert_many : Coll → List Doc → Coll × Except String Nat
  | coll, [] => (coll, Except.ok 0)
  | coll, d :: ds =>
      if hasDupIdIn coll d then (coll, Except.error "E11000 duplicate key error")
      else
        match insert_many (coll ++ [d]) ds with
        | (c2, Except.ok n) => (c2, Except.ok (n + 1))
        | (c2, Except.error e) => (c2, Except.error e)

/-- Outcome of DocMongoBackend.insert: the resulting collection, the value
returned to the caller (none when the method falls through returning
nothing), and the side-channel err file holding the pickled exception. -/
structure InsertOutcome where
  coll : Coll
  ret : Option Nat
  errFile : Option String

/-- DocMongoBackend.insert: try insert_many and return the count of inserted
ids; on any exception, serialize it to the err file and return nothing. -/
def insert (coll : Coll) (docs : List Doc) : InsertOutcome :=
  match insert_many coll docs with
  | (c2, Except.ok n) => ⟨c2, some n, none⟩
  | (c2, Except.error e) => ⟨c2, none, some e⟩

/-- DocMongoBackend.update: ordered bulk of per-document find plus $set
operations; without upsert, documents whose _id matches nothing are silently
skipped; with upsert, they are inserted; returns the new collection and
nMatched plus nUpserted. -/
def update (coll : Coll) (docs : List Doc) (upsert : Bool) : Coll × Nat :=
  docs.foldl (fun acc doc =>
    let idv? := idOfDoc doc
    let pmatch : Doc → Bool := fun e =>
      match idv? with
      | some v => docMatchesId v e
      | none => false
    let nMatched := (acc.1.filter pmatch).length
    if nMatched > 0 then
      (acc.1.map (fun e => if pmatch e then pyUpdate e doc else e), acc.2 + nMatched)
    else if upsert then (acc.1 ++ [doc], acc.2 + 1)
    else (acc.1, acc.2)) (coll, 0)

/-- Python range(0, n, step) for a positive step: the chunk start offsets. -/
def chunkStarts (n step : Nat) : List Nat :=
  (List.range ((n + step - 1) / step)).map (fun i => i * step)

/-- The consecutive slices ids[i : i + step] taken by the chunked loops. -/
def chunksOf {α : Type} (ids : List α) (step : Nat) : List (List α) :=
  (chunkStarts ids.length step).map (fun i => (ids.drop i).take step)

/-- Count of documents matching an $in query over ids: the per-chunk count
primitive, and also what a single unchunked query over all of ids returns. -/
def countIn (coll : Coll) (ids : List Val) : Nat :=
  (coll.filter (docMatchesIn ids)).length

/-- DocMongoBackend.count_from_ids: sum the per-chunk counts over the
consecutive step-sized slices of ids. -/
def count_from_ids (coll : Coll) (ids : List Val) (step : Nat) : Nat :=
  (chunksOf ids step).foldl (fun acc chunk => acc + countIn coll chunk) 0

/-- DocMongoBackend.remove_from_ids: remove the documents matching each
step-sized chunk of ids, chunk after chunk. -/
def remove_from_ids (coll : Coll) (ids : List Val) (step : Nat) : Coll :=
  (chunksOf ids step).foldl (fun c chunk => c.filter (fun d => !docMatchesIn chunk d)) coll

/-- Executable duplicate-freedom test on an id list. -/
def noDupIds : List Val → Bool
  | [] => true
  | v :: vs => vs.all (fun w => !valBeq v w) && noDupIds vs

/-- Does every document of the collection carry an _id field. -/
def allHaveId (coll : Coll) : Bool :=
  coll.all (fun d => (idOfDoc d).isSome)

/-- Executable pairwise-distinct-ids test on a collection. -/
def distinctIds : Coll → Bool
  | [] => true
  | d :: ds =>
      (ds.all (fun e =>
        match idOfDoc d, idOfDoc e with
        | some v, some w => !valBeq v w
        | _, _ => true)) && distinctIds ds

/-- Well-formed collection: every document has an _id and the ids are
pairwise distinct (the store enforces _id uniqueness). -/
def wfColl (coll : Coll) : Bool := allHaveId coll && distinctIds coll

/-- DocMongoBackend.drop: the driver drops the whole collection; dropping a
missing collection is a server-side no-op, so the call never raises. -/
def drop (_coll : Coll) : Coll := []

end DocMongoBackend

namespace DocMemoryBackend

/-- The in-process target dict: document id mapped to document. -/
abbrev Target := List (Val × Doc)

/-- DocMemoryBackend.insert: store each document under its _id, last write
winning on id collision (documents without an _id would raise in Python and
are outside well-formed inputs; they are skipped here). -/
def insert (t : Target) (docs : List Doc) : Target :=
  docs.foldl (fun acc d =>
    match idOfDoc d with
    | some v => alSet valBeq acc v d
    | none => acc) t

/-- DocMemoryBackend.update: fetch the current document with get(id, None)
and, when it is truthy (present and non-empty), merge the patch into it and
store it back; otherwise do nothing. -/
def update (t : Target) (id : Val) (extra_doc : Doc) : Target :=
  match alGet valBeq t id with
  | some current_doc =>
      if current_doc.isEmpty then t
      else alSet valBeq t id (pyUpdate current_doc extra_doc)
  | none => t

/-- DocMemoryBackend.drop: reset the target dict to empty. -/
def drop (_t : Target) : Target := []

/-- DocMemoryBackend.get_from_id: plain dict read (a missing id raises
KeyError in Python; modelled as none). -/
def get_from_id (t : Target) (id : Val) : Option Doc := alGet valBeq t id

end DocMemoryBackend

namespace DocESBackend

/-- DocESBackend.query: run the scrolled search through doc_feeder; the whole
call is wrapped in try/except, so any failure of the underlying query is
swallowed and the method falls through returning nothing. The underlying
doc_feeder outcome (a lazy result sequence, or a failure) is a parameter,
the search engine itself being external. -/
def query (feederResult : Except String (List Doc)) : Option (List Doc) :=
  match feederResult with
  | Except.ok docs => some docs
  | Except.error _ => none

/-- Client contract of get_mapping: ok when the index type mapping exists,
an IndexMissingException otherwise. The mapping state is a Bool parameter,
the index itself being external. -/
def get_mapping (hasMapping : Bool) : Except String Unit :=
  if hasMapping then Except.ok () else Except.error "IndexMissingException"

/-- DocESBackend.drop: probe the type mapping with get_mapping; when the
probe raises IndexMissingException, catch it and return (state untouched);
otherwise delete the mapping. Returns the new mapping-exists state. -/
def drop (hasMapping : Bool) : Bool :=
  match get_mapping hasMapping with
  | Except.error _ => hasMapping
  | Except.ok _ => false

end DocESBackend

namespace DocCouchDBBackend

/-- State of the replicated-store backend: the underlying database (document
id mapped to document) and the process-local document cache that buffers
updates until finalize. -/
structure Backend where
  target_db : List (String × Doc)
  doc_cache : List (String × Doc)

/-- The view over _all_docs with include_docs: a full id-to-document
snapshot of the database. -/
def view_all_docs (db : List (String × Doc)) : List (String × Doc) := db

/-- DocCouchDBBackend.update: when the cache is empty (falsy), load the whole
store into it first; then, when the cached document for id is truthy, merge
the patch into the cached copy and store it back in the cache. The underlying
database is never touched. -/
def update (st : Backend) (id : String) (extra_doc : Doc) : Backend :=
  let cache := if st.doc_cache.isEmpty then view_all_docs st.target_db else st.doc_cache
  match alGet strBeq cache id with
  | some current_doc =>
      if current_doc.isEmpty then { st with doc_cache := cache }
      else { st with doc_cache := alSet strBeq cache id (pyUpdate current_doc extra_doc) }
  | none => { st with doc_cache := cache }

/-- The nine taxon ids hard-coded in finalize. -/
def speciesLi : List Nat := [9606, 10090, 10116, 7227, 6239, 7955, 3702, 8364, 9823]

/-- Python g[0] membership test in the species set for one entry of a
homologene genes list: a non-empty list entry tests its first element (an
integer first element is compared against the taxon ids, any other type is
simply not a member), a non-empty string entry indexes to a one-character
string which is never a member; indexing an empty list, an empty string, an
integer or a dict raises, modelled as none. -/
def geneTest (species : List Nat) : Val → Option Bool
  | Val.vlist (x :: _) =>
      match x with
      | Val.vnat n => some (species.contains n)
      | _ => some false
  | Val.vlist [] => none
  | Val.vstr s => if s.isEmpty then none else some false
  | _ => none

/-- The genes list comprehension of _homologene_trimming: keep the entries
whose first element is in the species set, propagating an indexing error. -/
def filterGenes (species : List Nat) : List Val → Option (List Val)
  | [] => some []
  | g :: gs =>
      match geneTest species g with
      | none => none
      | some b =>
          match filterGenes species gs with
          | none => none
          | some rest => some (if b then g :: rest else rest)

/-- Per-document body of _homologene_trimming: when the homologene attribute
is truthy (get on a truthy non-dict raises) and its genes attribute is truthy
(iterating a truthy non-list raises), filter the genes list and write the
result back into the document. -/
def trimDoc (species : List Nat) (gdoc : Doc) : Option Doc :=
  match pyGet gdoc "homologene" with
  | none => some gdoc
  | some hv =>
      if pyTruthy hv then
        match hv with
        | Val.vdict hgene =>
            (match pyGet hgene "genes" with
             | none => some gdoc
             | some gv =>
                 if pyTruthy gv then
                   match gv with
                   | Val.vlist genes =>
                       (match filterGenes species genes with
                        | none => none
                        | some filtered =>
                            some (pySet gdoc "homologene"
                              (Val.vdict (pySet hgene "genes" (Val.vlist filtered)))))
                   | _ => none
                 else some gdoc)
        | _ => none
      else some gdoc

/-- The loop of _homologene_trimming over the cache entries, rewriting each
cached document in turn and propagating a raised error. -/
def trimEntries (species : List Nat) : List (String × Doc) → Option (List (String × Doc))
  | [] => some []
  | (k, d) :: rest =>
      match trimDoc species d with
      | none => none
      | some d2 =>
          match trimEntries species rest with
          | none => none
          | some rest2 => some ((k, d2) :: rest2)

/-- DocCouchDBBackend._homologene_trimming: when the cache is non-empty,
trim the homologene genes of every cached document down to the allowed
species. -/
def homologene_trimming (species : List Nat) (cache : List (String × Doc)) :
    Option (List (String × Doc)) :=
  if cache.isEmpty then some cache
  else trimEntries species cache

/-- The database bulk update behind _db_upload: each uploaded document is
written under its own _id (documents without a string _id would be assigned
a fresh id by the store; well-formed cached documents always carry their
id, so that case is not modelled and such documents are skipped). -/
def db_upload (db : List (String × Doc)) (doc_li : List Doc) : List (String × Doc) :=
  doc_li.foldl (fun acc d =>
    match pyGet d "_id" with
    | some (Val.vstr i) => alSet strBeq acc i d
    | _ => acc) db

/-- DocCouchDBBackend.finalize: when the cache holds documents, run the
homologene trimming over it with the hard-coded species list, upload every
cached document, and clear the cache; commit and compact are pass-through
calls on the store. A trimming error propagates (none). -/
def finalize (st : Backend) : Option Backend :=
  if st.doc_cache.length > 0 then
    match homologene_trimming speciesLi st.doc_cache with
    | some trimmed =>
        some { target_db := db_upload st.target_db (trimmed.map (fun kv => kv.2)),
               doc_cache := [] }
    | none => none
  else some st

/-- DocCouchDBBackend.get_from_id: direct read of the underlying database,
not of the cache (a missing id raises in Python; modelled as none). -/
def get_from_id (st : Backend) (id : String) : Option Doc :=
  alGet strBeq st.target_db id

/-- Client contract of server.delete: ok removing the database when present,
a ResourceNotFound error otherwise. The server is the list of database
names it holds. -/
def serverDelete (dbs : List String) (name : String) : Except String (List String) :=
  if dbs.contains name then Except.ok (dbs.filter (fun n => n != name))
  else Except.error "ResourceNotFound"

/-- DocCouchDBBackend.drop: delete the named database, catching and
swallowing ResourceNotFound when it is already absent. -/
def drop (dbs : List String) (name : String) : List String :=
  match serverDelete dbs name with
  | Except.ok dbs2 => dbs2
  | Except.error _ => dbs

end DocCouchDBBackend

mutual
theorem valBeq_iff : ∀ a b : Val, valBeq a b = true ↔ a = b
  | .vnat a, .vnat b => by simp [valBeq]
  | .vstr a, .vstr b => by simp [valBeq]
  | .vlist as, .vlist bs => by simp [valBeq, valListBeq_iff as bs]
  | .vdict as, .vdict bs => by simp [valBeq, valDictBeq_iff as bs]
  | .vnat a, .vstr b => by simp [valBeq]
  | .vnat a, .vlist b => by simp [valBeq]
  | .vnat a, .vdict b => by simp [valBeq]
  | .vstr a, .vnat b => by simp [valBeq]
  | .vstr a, .vlist b => by simp [valBeq]
  | .vstr a, .vdict b => by simp [valBeq]
  | .vlist a, .vnat b => by simp [valBeq]
  | .vlist a, .vstr b => by simp [valBeq]
  | .vlist a, .vdict b => by simp [valBeq]
  | .vdict a, .vnat b => by simp [valBeq]
  | .vdict a, .vstr b => by simp [valBeq]
  | .vdict a, .vlist b => by simp [valBeq]
theorem valListBeq_iff : ∀ as bs : List Val, valListBeq as bs = true ↔ as = bs
  | [], [] => by simp [valListBeq]
  | a :: as, b :: bs => by
      simp [valListBeq, valBeq_iff a b, valListBeq_iff as bs]
  | [], _ :: _ => by simp [valListBeq]
  | _ :: _, [] => by simp [valListBeq]
theorem valDictBeq_iff : ∀ as bs : List (String × Val), valDictBeq as bs = true ↔ as = bs
  | [], [] => by simp [valDictBeq]
  | (ka, va) :: as, (kb, vb) :: bs => by
      simp [valDictBeq, valBeq_iff va vb, valDictBeq_iff as bs]
  | [], _ :: _ => by simp [valDictBeq]
  | _ :: _, [] => by simp [valDictBeq]
end

theorem valBeq_refl (a : Val) : valBeq a a = true := (valBeq_iff a a).mpr rfl

theorem valBeq_eq_false_iff (a b : Val) : valBeq a b = false ↔ a ≠ b := by
  rw [← Bool.not_eq_true, not_iff_not]
  exact valBeq_iff a b

theorem strBeq_iff (a b : String) : strBeq a b = true ↔ a = b := by
  simp [strBeq]

theorem strBeq_refl (a : String) : strBeq a a = true := (strBeq_iff a a).mpr rfl

section AssocLemmas

variable {κ α : Type} {eqk : κ → κ → Bool}

theorem alSet_ne_nil (l : List (κ × α)) (k : κ) (v : α) : alSet eqk l k v ≠ [] := by
  cases l with
  | nil => simp [alSet]
  | cons kv l =>
      obtain ⟨k0, v0⟩ := kv
      simp only [alSet]
      cases h : eqk k0 k <;> simp

theorem alGet_alSet_self (hrefl : eqk k k = true) (l : List (κ × α)) (v : α) :
    alGet eqk (alSet eqk l k v) k = some v := by
  induction l with
  | nil => simp [alSet, alGet, hrefl]
  | cons kv l ih =>
      obtain ⟨k0, v0⟩ := kv
      simp only [alSet]
      cases h : eqk k0 k with
      | true => simp [alGet, h]
      | false => simp [alGet, h, ih]

theorem alGet_alSet_ne (hsound : ∀ a b, eqk a b = true → a = b)
    (l : List (κ × α)) {k k' : κ} (v : α) (hne : k' ≠ k) :
    alGet eqk (alSet eqk l k v) k' = alGet eqk l k' := by
  induction l with
  | nil =>
      simp only [alSet, alGet]
      cases h : eqk k k' with
      | true => exact absurd (hsound _ _ h).symm hne
      | false => simp
  | cons kv l ih =>
      obtain ⟨k0, v0⟩ := kv
      simp only [alSet]
      cases h : eqk k0 k with
      | true =>
          have h2 : eqk k0 k' = false := by
            cases h2 : eqk k0 k' with
            | true =>
                have := (hsound _ _ h2).symm.trans (hsound _ _ h)
                exact absurd this hne
            | false => rfl
          simp [alGet, h2]
      | false => simp [alGet, h, ih]

theorem alSet_alSet_same (hrefl : eqk k k = true) (l : List (κ × α)) (v w : α) :
    alSet eqk (alSet eqk l k v) k w = alSet eqk l k w := by
  induction l with
  | nil => simp [alSet, hrefl]
  | cons kv l ih =>
      obtain ⟨k0, v0⟩ := kv
      simp only [alSet]
      cases h : eqk k0 k with
      | true => simp [alSet, h]
      | false => simp [alSet, h, ih]

theorem alGet_mem (hsound : ∀ a b, eqk a b = true → a = b)
    {l : List (κ × α)} {k : κ} {v : α} (h : alGet eqk l k = some v) : (k, v) ∈ l := by
  induction l with
  | nil => simp [alGet] at h
  | cons kv l ih =>
      obtain ⟨k0, v0⟩ := kv
      simp only [alGet] at h
      cases he : eqk k0 k with
      | true =>
          rw [he] at h
          simp at h
          have hk := hsound _ _ he
          rw [hk, h]
          exact List.mem_cons_self _ _
      | false =>
          rw [he] at h
          simp at h
          right
          exact ih h

theorem mem_alSet (hsound : ∀ a b, eqk a b = true → a = b)
    {l : List (κ × α)} {k : κ} {v : α} {kv : κ × α}
    (h : kv ∈ alSet eqk l k v) : kv ∈ l ∨ kv = (k, v) := by
  induction l with
  | nil =>
      simp [alSet] at h
      right
      simp [h]
  | cons kv0 l ih =>
      obtain ⟨k0, v0⟩ := kv0
      simp only [alSet] at h
      cases he : eqk k0 k with
      | true =>
          rw [he] at h
          simp at h
          rcases h with h | h
          · right
            rw [hsound _ _ he] at h
            simp [h]
          · left
            simp [h]
      | false =>
          rw [he] at h
          simp at h
          rcases h with h | h
          · left
            simp [h]
          · rcases ih h with h2 | h2
            · left
              simp [h2]
            · right
              exact h2

theorem map_fst_alSet_of_get_some {l : List (κ × α)} {k : κ} {v0 : α}
    (h : alGet eqk l k = some v0) (w : α) :
    (alSet eqk l k w).map Prod.fst = l.map Prod.fst := by
  induction l with
  | nil => simp [alGet] at h
  | cons kv l ih =>
      obtain ⟨k0, va⟩ := kv
      simp only [alGet] at h
      simp only [alSet]
      cases he : eqk k0 k with
      | true => simp
      | false =>
          rw [he] at h
          simp at h
          simp [ih h]

theorem alSet_append_of_all_ne {l : List (κ × α)} {k : κ}
    (h : ∀ kv ∈ l, eqk kv.1 k = false) (v : α) :
    alSet eqk l k v = l ++ [(k, v)] := by
  induction l with
  | nil => simp [alSet]
  | cons kv l ih =>
      obtain ⟨k0, v0⟩ := kv
      have h0 : eqk k0 k = false := h (k0, v0) (by simp)
      simp only [alSet, h0]
      simp only [Bool.false_eq_true, if_false, List.cons_append, List.cons.injEq, true_and]
      exact ih (fun kv hm => h kv (by simp [hm]))

end AssocLemmas

theorem pyGet_pySet_self (d : Doc) (k : String) (v : Val) :
    pyGet (pySet d k v) k = some v :=
  alGet_alSet_self (strBeq_refl k) d v

theorem pyGet_pySet_ne (d : Doc) {k k' : String} (v : Val) (hne : k' ≠ k) :
    pyGet (pySet d k v) k' = pyGet d k' :=
  alGet_alSet_ne (fun a b h => (strBeq_iff a b).mp h) d v hne

theorem pySet_pySet_same (d : Doc) (k : String) (v w : Val) :
    pySet (pySet d k v) k w = pySet d k w :=
  alSet_alSet_same (strBeq_refl k) d v w

theorem pySet_ne_nil (d : Doc) (k : String) (v : Val) : pySet d k v ≠ [] :=
  alSet_ne_nil d k v

theorem pyGet_pyUpdate_of_none {e : Doc} (d : Doc) {k : String}
    (h : pyGet e k = none) : pyGet (pyUpdate d e) k = pyGet d k := by
  induction e generalizing d with
  | nil => simp [pyUpdate]
  | cons kv e ih =>
      obtain ⟨k0, v0⟩ := kv
      simp only [pyGet, alGet] at h
      cases he : strBeq k0 k with
      | true => rw [he] at h; simp at h
      | false =>
          rw [he] at h
          simp only [Bool.false_eq_true, if_false] at h
          have hne : k ≠ k0 := by
            intro hkk
            rw [hkk] at he
            rw [strBeq_refl k0] at he
            exact Bool.true_eq_false.mp he
          show pyGet (pyUpdate (pySet d k0 v0) e) k = pyGet d k
          rw [ih (pySet d k0 v0) h]
          exact pyGet_pySet_ne d v0 hne

/-- C2: evaluation of the code at the failing input. For a stored target
document, update_diff with a diff whose add, update and delete slots are all
empty (and no extra fields) builds an empty update document and hands it to
the store driver, which rejects it with ValueError; the call is an error,
not a no-op. -/
theorem C2_empty_diff_is_error :
    DocMongoBackend.update_diff [[("_id", Val.vnat 1), ("y", Val.vnat 1)]]
      ⟨Val.vnat 1, [], [], []⟩ [] =
      Except.error "update only works with $ operators" := rfl

/-- C7: for every outcome of the underlying scrolled search, query never
propagates a failure: on an error it swallows the exception and returns
nothing, and on success it returns the result sequence. -/
theorem C7_query_swallows :
    ∀ (r : Except String (List Doc)),
      (∀ e, r = Except.error e → DocESBackend.query r = none) ∧
      (∀ docs, r = Except.ok docs → DocESBackend.query r = some docs) := by
  intro r
  constructor
  · intro e he
    subst he
    rfl
  · intro docs hd
    subst hd
    rfl

/-- C7 witness: a failing query returns none and a succeeding one returns
its documents, at concrete inputs. -/
theorem C7_witness :
    DocESBackend.query (Except.error "scroll failure") = none ∧
    DocESBackend.query (Except.ok [[("_id", Val.vnat 1)]]) = some [[("_id", Val.vnat 1)]] :=
  ⟨(C7_query_swallows (Except.error "scroll failure")).1 "scroll failure" rfl,
   (C7_query_swallows (Except.ok [[("_id", Val.vnat 1)]])).2 [[("_id", Val.vnat 1)]] rfl⟩

/-- C9: drop on an already-empty or missing target returns normally for every
backend: the replicated-store backend swallows ResourceNotFound, the
search-index backend swallows the missing-mapping probe failure, and the
memory and document-store drops are unconditional resets. -/
theorem C9_drop_missing_noop :
    (∀ (dbs : List String) (nm : String), dbs.contains nm = false →
        DocCouchDBBackend.drop dbs nm = dbs) ∧
    (DocESBackend.drop false = false) ∧
    (∀ t : DocMemoryBackend.Target, DocMemoryBackend.drop t = []) ∧
    (∀ coll : DocMongoBackend.Coll, DocMongoBackend.drop coll = []) := by
  refine ⟨?_, rfl, fun _ => rfl, fun _ => rfl⟩
  intro dbs nm h
  have h2 : ¬ nm ∈ dbs := by simpa using h
  simp [DocCouchDBBackend.drop, DocCouchDBBackend.serverDelete, h2]

/-- C9 witness: dropping a database name the server does not hold leaves the
server unchanged and returns normally. -/
theorem C9_witness :
    DocCouchDBBackend.drop ["other"] "gone" = ["other"] :=
  C9_drop_missing_noop.1 ["other"] "gone" (by decide)

theorem insert_many_ok_length :
    ∀ (docs : List Doc) (coll c2 : DocMongoBackend.Coll) (n : Nat),
      DocMongoBackend.insert_many coll docs = (c2, Except.ok n) → n = docs.length := by
  intro docs
  induction docs with
  | nil =>
      intro coll c2 n h
      simp [DocMongoBackend.insert_many] at h
      simp [h.2]
  | cons d ds ih =>
      intro coll c2 n h
      rw [DocMongoBackend.insert_many] at h
      cases hdup : DocMongoBackend.hasDupIdIn coll d with
      | true =>
          rw [hdup] at h
          simp at h
      | false =>
          rw [hdup] at h
          simp only [Bool.false_eq_true, if_false] at h
          rcases hm : DocMongoBackend.insert_many (coll ++ [d]) ds with ⟨c3, r⟩
          rw [hm] at h
          cases r with
          | ok m =>
              simp at h
              have := ih (coll ++ [d]) c3 m hm
              simp [← h.2, this]
          | error e => simp at h

/-- C5: insert returns the count of newly inserted ids when the underlying
multi-document insert succeeds (the count being the full batch size), and on
any exception it does not propagate: the exception is captured to the err
side-channel file and the call returns nothing. -/
theorem C5_insert_outcomes :
    ∀ (coll : DocMongoBackend.Coll) (docs : List Doc),
      (∀ c2 n, DocMongoBackend.insert_many coll docs = (c2, Except.ok n) →
          DocMongoBackend.insert coll docs = ⟨c2, some n, none⟩ ∧ n = docs.length) ∧
      (∀ c2 e, DocMongoBackend.insert_many coll docs = (c2, Except.error e) →
          DocMongoBackend.insert coll docs = ⟨c2, none, some e⟩) := by
  intro coll docs
  constructor
  · intro c2 n h
    constructor
    · rw [DocMongoBackend.insert, h]
    · exact insert_many_ok_length docs coll c2 n h
  · intro c2 e h
    rw [DocMongoBackend.insert, h]

/-- C5 witness: a successful batch returns its size with no error file, and a
duplicate-key failure returns nothing with the exception captured, at
concrete inputs. -/
theorem C5_witness :
    (DocMongoBackend.insert [] [[("_id", Val.vstr "a")]] =
       ⟨[[("_id", Val.vstr "a")]], some 1, none⟩) ∧
    (DocMongoBackend.insert [[("_id", Val.vstr "a")]] [[("_id", Val.vstr "a")]] =
       ⟨[[("_id", Val.vstr "a")]], none, some "E11000 duplicate key error"⟩) :=
  ⟨((C5_insert_outcomes [] [[("_id", Val.vstr "a")]]).1
      [[("_id", Val.vstr "a")]] 1 rfl).1,
   (C5_insert_outcomes [[("_id", Val.vstr "a")]] [[("_id", Val.vstr "a")]]).2
      [[("_id", Val.vstr "a")]] "E11000 duplicate key error" rfl⟩

/-- C8: update on a nonexistent id is a no-op for the memory backend, the
replicated-store backend (the underlying database untouched, no document
visible afterwards) and the document-store bulk update without upsert
(collection unchanged, zero matched). -/
theorem C8_update_missing_noop :
    (∀ (t : DocMemoryBackend.Target) (id : Val) (p : Doc),
        alGet valBeq t id = none →
        DocMemoryBackend.update t id p = t ∧
        DocMemoryBackend.get_from_id (DocMemoryBackend.update t id p) id = none) ∧
    (∀ (db cache : List (String × Doc)) (id : String) (p : Doc),
        alGet strBeq db id = none → alGet strBeq cache id = none →
        (DocCouchDBBackend.update ⟨db, cache⟩ id p).target_db = db ∧
        DocCouchDBBackend.get_from_id (DocCouchDBBackend.update ⟨db, cache⟩ id p) id = none) ∧
    (∀ (coll : DocMongoBackend.Coll) (doc : Doc) (idv : Val),
        idOfDoc doc = some idv →
        (coll.all fun e => !docMatchesId idv e) = true →
        DocMongoBackend.update coll [doc] false = (coll, 0)) := by
  refine ⟨?_, ?_, ?_⟩
  · intro t id p h
    have hu : DocMemoryBackend.update t id p = t := by
      rw [DocMemoryBackend.update, h]
    exact ⟨hu, by rw [hu]; exact h⟩
  · intro db cache id p hdb hcache
    have hc2 : alGet strBeq
        (if cache.isEmpty then DocCouchDBBackend.view_all_docs db else cache) id = none := by
      cases cache.isEmpty <;> simpa [DocCouchDBBackend.view_all_docs]
    constructor
    · rw [DocCouchDBBackend.update, hc2]
    · rw [DocCouchDBBackend.get_from_id, DocCouchDBBackend.update, hc2]
      exact hdb
  · intro coll doc idv hid hall
    have hfil : coll.filter (fun e => docMatchesId idv e) = [] := by
      rw [List.filter_eq_nil_iff]
      intro e he
      have := (List.all_eq_true.mp hall) e he
      simp at this
      simp [this]
    simp only [DocMongoBackend.update, List.foldl, hid, hfil]
    simp

/-- C8 witness: concrete runs of all three parts on stores that do not hold
the requested id. -/
theorem C8_witness :
    (DocMemoryBackend.update [] (Val.vstr "x") [("a", Val.vnat 1)] = [] ∧
     DocMemoryBackend.get_from_id
       (DocMemoryBackend.update [] (Val.vstr "x") [("a", Val.vnat 1)]) (Val.vstr "x") = none) ∧
    ((DocCouchDBBackend.update ⟨[("a", [("_id", Val.vstr "a")])], []⟩ "x" []).target_db =
       [("a", [("_id", Val.vstr "a")])] ∧
     DocCouchDBBackend.get_from_id
       (DocCouchDBBackend.update ⟨[("a", [("_id", Val.vstr "a")])], []⟩ "x" []) "x" = none) ∧
    (DocMongoBackend.update [[("_id", Val.vstr "a")]] [[("_id", Val.vstr "x")]] false =
       ([[("_id", Val.vstr "a")]], 0)) :=
  ⟨C8_update_missing_noop.1 [] (Val.vstr "x") [("a", Val.vnat 1)] rfl,
   C8_update_missing_noop.2.1 [("a", [("_id", Val.vstr "a")])] [] "x" [] rfl rfl,
   C8_update_missing_noop.2.2 [[("_id", Val.vstr "a")]] [("_id", Val.vstr "x")]
     (Val.vstr "x") rfl rfl⟩

theorem updateFirst_length (p : Doc → Bool) (f : Doc → Doc) :
    ∀ l : List Doc, (DocMongoBackend.updateFirst p f l).1.length = l.length := by
  intro l
  induction l with
  | nil => rfl
  | cons d ds ih =>
      rw [DocMongoBackend.updateFirst]
      cases hp : p d <;> simp [hp, ih]

theorem updateFirst_le_one (p : Doc → Bool) (f : Doc → Doc) :
    ∀ l : List Doc, (DocMongoBackend.updateFirst p f l).2 ≤ 1 := by
  intro l
  induction l with
  | nil => exact Nat.zero_le 1
  | cons d ds ih =>
      rw [DocMongoBackend.updateFirst]
      cases hp : p d with
      | true =>
          cases hb : valDictBeq (f d) d <;> simp [hp, hb]
      | false => simp [hp, ih]

theorem updateFirst_untouched (p : Doc → Bool) (f : Doc → Doc) :
    ∀ l : List Doc,
      List.Forall₂ (fun d d2 => p d = false → d2 = d) l
        (DocMongoBackend.updateFirst p f l).1 := by
  intro l
  induction l with
  | nil => exact List.Forall₂.nil
  | cons d ds ih =>
      rw [DocMongoBackend.updateFirst]
      cases hp : p d with
      | true =>
          simp only [hp, if_true]
          exact List.Forall₂.cons (fun h => by rw [hp] at h; cases h)
            (List.forall₂_same.mpr (fun a _ _ => rfl))
      | false =>
          simp only [hp, Bool.false_eq_true, if_false]
          exact List.Forall₂.cons (fun _ => rfl) ih

theorem update_one_ok (coll : DocMongoBackend.Coll) (idv : Val)
    (u : DocMongoBackend.UpdateDoc) (coll2 : DocMongoBackend.Coll) (n : Nat)
    (h : DocMongoBackend.update_one coll idv u = Except.ok (coll2, n)) :
    coll2.length = coll.length ∧ n ≤ 1 ∧
    List.Forall₂ (fun d d2 => docMatchesId idv d = false → d2 = d) coll coll2 := by
  rw [DocMongoBackend.update_one] at h
  split at h
  · cases h
  · rw [Except.ok.injEq] at h
    have h1 := congrArg Prod.fst h
    have h2 := congrArg Prod.snd h
    dsimp only at h1 h2
    rw [← h1, ← h2]
    exact ⟨updateFirst_length _ _ coll, updateFirst_le_one _ _ coll,
      updateFirst_untouched _ _ coll⟩

/-- C3: update_diff on the stored document with id 1, fields y=1 and z=3,
given the diff adding x=1, updating y=2 and deleting z, rewrites the document
to id 1, y=2, x=1 (as a mapping, exactly the dict with _id 1, x 1 and y 2)
and reports modified count 1; with caller-supplied extra fields they join the
same single overwrite set; and in general the call never creates a document
(collection length preserved, so no upsert), returns a modified count of 0
or 1, and leaves every document not matching the _id of the diff untouched. -/
theorem C3_update_diff :
    (DocMongoBackend.update_diff
        [[("_id", Val.vnat 1), ("y", Val.vnat 1), ("z", Val.vnat 3)]]
        ⟨Val.vnat 1, [("x", Val.vnat 1)], [("y", Val.vnat 2)], ["z"]⟩ [] =
      Except.ok ([[("_id", Val.vnat 1), ("y", Val.vnat 2), ("x", Val.vnat 1)]], 1)) ∧
    (DocMongoBackend.update_diff
        [[("_id", Val.vnat 1), ("y", Val.vnat 1), ("z", Val.vnat 3)]]
        ⟨Val.vnat 1, [("x", Val.vnat 1)], [("y", Val.vnat 2)], ["z"]⟩ [("ts", Val.vnat 9)] =
      Except.ok
        ([[("_id", Val.vnat 1), ("y", Val.vnat 2), ("x", Val.vnat 1), ("ts", Val.vnat 9)]], 1)) ∧
    (∀ coll diff extra coll2 n,
        DocMongoBackend.update_diff coll diff extra = Except.ok (coll2, n) →
        coll2.length = coll.length ∧ n ≤ 1 ∧
        List.Forall₂ (fun d d2 => docMatchesId diff._id d = false → d2 = d) coll coll2) := by
  refine ⟨rfl, rfl, ?_⟩
  intro coll diff extra coll2 n h
  rw [DocMongoBackend.update_diff] at h
  exact update_one_ok coll diff._id _ coll2 n h

/-- C3 witness: the general consequences instantiated on the concrete example
run, with the hypothesis discharged by the first concrete equation. -/
theorem C3_witness :
    [[("_id", Val.vnat 1), ("y", Val.vnat 2), ("x", Val.vnat 1)]].length =
      [[("_id", Val.vnat 1), ("y", Val.vnat 1), ("z", Val.vnat 3)]].length ∧
    1 ≤ 1 ∧
    List.Forall₂ (fun d d2 => docMatchesId (Val.vnat 1) d = false → d2 = d)
      [[("_id", Val.vnat 1), ("y", Val.vnat 1), ("z", Val.vnat 3)]]
      [[("_id", Val.vnat 1), ("y", Val.vnat 2), ("x", Val.vnat 1)]] :=
  C3_update_diff.2.2
    [[("_id", Val.vnat 1), ("y", Val.vnat 1), ("z", Val.vnat 3)]]
    ⟨Val.vnat 1, [("x", Val.vnat 1)], [("y", Val.vnat 2)], ["z"]⟩ []
    [[("_id", Val.vnat 1), ("y", Val.vnat 2), ("x", Val.vnat 1)]] 1
    C3_update_diff.1

theorem filterGenes_mem {s : List Nat} :
    ∀ {gs fs : List Val}, DocCouchDBBackend.filterGenes s gs = some fs →
      ∀ g ∈ fs, DocCouchDBBackend.geneTest s g = some true := by
  intro gs
  induction gs with
  | nil =>
      intro fs h g hg
      rw [DocCouchDBBackend.filterGenes] at h
      simp at h
      subst h
      simp at hg
  | cons g0 gs ih =>
      intro fs h g hg
      rw [DocCouchDBBackend.filterGenes] at h
      cases ht : DocCouchDBBackend.geneTest s g0 with
      | none => rw [ht] at h; cases h
      | some b =>
          rw [ht] at h
          cases hr : DocCouchDBBackend.filterGenes s gs with
          | none => rw [hr] at h; cases h
          | some rest =>
              rw [hr] at h
              cases b with
              | true =>
                  simp at h
                  subst h
                  rcases List.mem_cons.mp hg with hg | hg
                  · subst hg; exact ht
                  · exact ih hr g hg
              | false =>
                  simp at h
                  subst h
                  exact ih hr g hg

theorem filterGenes_fixed {s : List Nat} :
    ∀ {fs : List Val}, (∀ g ∈ fs, DocCouchDBBackend.geneTest s g = some true) →
      DocCouchDBBackend.filterGenes s fs = some fs := by
  intro fs
  induction fs with
  | nil => intro _; rfl
  | cons g gs ih =>
      intro h
      rw [DocCouchDBBackend.filterGenes, h g (List.mem_cons_self g gs),
        ih (fun g2 hg2 => h g2 (List.mem_cons_of_mem g hg2))]
      simp

theorem trimDoc_idem {s : List Nat} {d d2 : Doc}
    (h : DocCouchDBBackend.trimDoc s d = some d2) :
    DocCouchDBBackend.trimDoc s d2 = some d2 := by
  have h0 := h
  rw [DocCouchDBBackend.trimDoc] at h
  cases hh : pyGet d "homologene" with
  | none =>
      rw [hh] at h
      dsimp only at h
      injection h with h2
      subst h2
      exact h0
  | some hv =>
      rw [hh] at h
      dsimp only at h
      cases htr : pyTruthy hv with
      | false =>
          rw [if_neg (by simp [htr])] at h
          injection h with h2
          subst h2
          exact h0
      | true =>
          rw [if_pos htr] at h
          cases hv with
          | vnat x => cases h
          | vstr x => cases h
          | vlist x => cases h
          | vdict hgene =>
              dsimp only at h
              cases hg : pyGet hgene "genes" with
              | none =>
                  rw [hg] at h
                  dsimp only at h
                  injection h with h2
                  subst h2
                  exact h0
              | some gv =>
                  rw [hg] at h
                  dsimp only at h
                  cases htg : pyTruthy gv with
                  | false =>
                      rw [if_neg (by simp [htg])] at h
                      injection h with h2
                      subst h2
                      exact h0
                  | true =>
                      rw [if_pos htg] at h
                      cases gv with
                      | vnat x => cases h
                      | vstr x => cases h
                      | vdict x => cases h
                      | vlist genes =>
                          dsimp only at h
                          cases hf : DocCouchDBBackend.filterGenes s genes with
                          | none => rw [hf] at h; cases h
                          | some filtered =>
                              rw [hf] at h
                              dsimp only at h
                              injection h with h2
                              subst h2
                              have h5 : (pySet hgene "genes" (Val.vlist filtered)).isEmpty
                                  = false := by
                                cases hq : pySet hgene "genes" (Val.vlist filtered) with
                                | nil => exact absurd hq (pySet_ne_nil _ _ _)
                                | cons kv l => rfl
                              have htr2 : pyTruthy
                                  (Val.vdict (pySet hgene "genes" (Val.vlist filtered)))
                                  = true := by simp [pyTruthy, h5]
                              rw [DocCouchDBBackend.trimDoc, pyGet_pySet_self]
                              try dsimp only
                              rw [if_pos htr2]
                              try dsimp only
                              rw [pyGet_pySet_self]
                              try dsimp only
                              cases filtered with
                              | nil => rw [if_neg (by simp [pyTruthy])]
                              | cons g gs =>
                                  rw [if_pos (by simp [pyTruthy])]
                                  try dsimp only
                                  rw [filterGenes_fixed (filterGenes_mem hf)]
                                  try dsimp only
                                  rw [pySet_pySet_same, pySet_pySet_same]

theorem trimEntries_idem {s : List Nat} :
    ∀ {l l2 : List (String × Doc)},
      DocCouchDBBackend.trimEntries s l = some l2 →
      DocCouchDBBackend.trimEntries s l2 = some l2 := by
  intro l
  induction l with
  | nil =>
      intro l2 h
      rw [DocCouchDBBackend.trimEntries] at h
      injection h with h2
      subst h2
      rfl
  | cons kv l ih =>
      obtain ⟨k, d⟩ := kv
      intro l2 h
      rw [DocCouchDBBackend.trimEntries] at h
      cases hd : DocCouchDBBackend.trimDoc s d with
      | none => rw [hd] at h; cases h
      | some d2 =>
          rw [hd] at h
          cases hr : DocCouchDBBackend.trimEntries s l with
          | none => rw [hr] at h; cases h
          | some rest2 =>
              rw [hr] at h
              dsimp only at h
              injection h with h2
              subst h2
              rw [DocCouchDBBackend.trimEntries, trimDoc_idem hd, ih hr]

/-- C10: the homologene-trimming filter is idempotent: for every cache
contents and every species allow-list, applying the filter twice (a raised
indexing error propagating through the composition) yields exactly the same
cache as applying it once. -/
theorem C10_trimming_idempotent :
    ∀ (species : List Nat) (cache : List (String × Doc)),
      (DocCouchDBBackend.homologene_trimming species cache).bind
          (DocCouchDBBackend.homologene_trimming species) =
        DocCouchDBBackend.homologene_trimming species cache := by
  intro species cache
  cases cache with
  | nil => rfl
  | cons kv l =>
      obtain ⟨k, d⟩ := kv
      rw [DocCouchDBBackend.homologene_trimming]
      simp only [List.isEmpty_cons, Bool.false_eq_true, if_false]
      cases htr : DocCouchDBBackend.trimEntries species ((k, d) :: l) with
      | none => rfl
      | some l2 =>
          have hl2 : ∃ kd rest, l2 = kd :: rest := by
            rw [DocCouchDBBackend.trimEntries] at htr
            cases hd : DocCouchDBBackend.trimDoc species d with
            | none => rw [hd] at htr; cases htr
            | some d2 =>
                rw [hd] at htr
                cases hr : DocCouchDBBackend.trimEntries species l with
                | none => rw [hr] at htr; cases htr
                | some rest2 =>
                    rw [hr] at htr
                    dsimp only at htr
                    injection htr with h2
                    exact ⟨(k, d2), rest2, h2.symm⟩
          obtain ⟨kd, rest, hl⟩ := hl2
          show DocCouchDBBackend.homologene_trimming species l2 = some l2
          subst hl
          rw [DocCouchDBBackend.homologene_trimming]
          simp only [List.isEmpty_cons, Bool.false_eq_true, if_false]
          exact trimEntries_idem htr

theorem filterMap_congr_mem {α β : Type} :
    ∀ (l : List α) (f g : α → Option β), (∀ a ∈ l, f a = g a) →
      l.filterMap f = l.filterMap g := by
  intro l f g h
  induction l with
  | nil => rfl
  | cons a l ih =>
      rw [List.filterMap_cons, List.filterMap_cons, h a (List.mem_cons_self a l),
        ih (fun b hb => h b (List.mem_cons_of_mem a hb))]

theorem pairwise_filter_of {α : Type} (R : α → α → Prop) (q : α → Bool) :
    ∀ l : List α, List.Pairwise R l → List.Pairwise R (l.filter q) := by
  intro l h
  induction l with
  | nil => exact List.Pairwise.nil
  | cons a l ih =>
      obtain ⟨ha, ht⟩ := List.pairwise_cons.mp h
      rw [List.filter_cons]
      cases q a with
      | true =>
          simp only [if_true]
          exact List.Pairwise.cons (fun b hb => ha b ((l.filter_sublist).subset hb)) (ih ht)
      | false =>
          simp only [Bool.false_eq_true, if_false]
          exact ih ht

theorem distinctIds_pairwise :
    ∀ {l : DocMongoBackend.Coll}, DocMongoBackend.distinctIds l = true →
      List.Pairwise (fun d e => ∀ v w, idOfDoc d = some v → idOfDoc e = some w →
        valBeq v w = false) l := by
  intro l
  induction l with
  | nil => intro _; exact List.Pairwise.nil
  | cons d ds ih =>
      intro h
      rw [DocMongoBackend.distinctIds, Bool.and_eq_true] at h
      refine List.Pairwise.cons ?_ (ih h.2)
      intro e he v w hv hw
      have h3 := List.all_eq_true.mp h.1 e he
      rw [hv, hw] at h3
      simpa using h3

theorem pairwise_filterMap_pairs :
    ∀ (cur : DocMongoBackend.Coll),
      List.Pairwise (fun d e => ∀ v w, idOfDoc d = some v → idOfDoc e = some w →
        valBeq v w = false) cur →
      List.Pairwise (fun a b : Val × Doc => valBeq a.1 b.1 = false)
        (cur.filterMap (fun d => (idOfDoc d).map (fun v => (v, d)))) := by
  intro cur
  induction cur with
  | nil => intro _; exact List.Pairwise.nil
  | cons d cur ih =>
      intro h
      obtain ⟨hd, ht⟩ := List.pairwise_cons.mp h
      rw [List.filterMap_cons]
      cases hid : idOfDoc d with
      | none =>
          simp only [Option.map_none']
          exact ih ht
      | some v =>
          simp only [Option.map_some']
          refine List.Pairwise.cons ?_ (ih ht)
          intro b hb
          rcases List.mem_filterMap.mp hb with ⟨e, he, hfe⟩
          cases hw : idOfDoc e with
          | none => rw [hw] at hfe; cases hfe
          | some w =>
              rw [hw] at hfe
              injection hfe with hfe
              subst hfe
              exact hd e he v w hid hw

theorem alGet_pairs_eq_find (i : Val) :
    ∀ cur : DocMongoBackend.Coll,
      alGet valBeq (cur.filterMap (fun d => (idOfDoc d).map (fun v => (v, d)))) i =
        cur.find? (docMatchesId i) := by
  intro cur
  induction cur with
  | nil => rfl
  | cons d cur ih =>
      rw [List.filterMap_cons]
      cases hid : idOfDoc d with
      | none =>
          have hm : docMatchesId i d = false := by rw [docMatchesId, hid]
          simp only [Option.map_none']
          rw [List.find?_cons_of_neg _ (by simp [hm])]
          exact ih
      | some v =>
          simp only [Option.map_some']
          have hm : docMatchesId i d = valBeq v i := by rw [docMatchesId, hid]
          cases hb : valBeq v i with
          | true =>
              rw [List.find?_cons_of_pos _ (by simp [hm, hb]), alGet]
              simp [hb]
          | false =>
              rw [List.find?_cons_of_neg _ (by simp [hm, hb]), alGet]
              simp only [hb, Bool.false_eq_true, if_false]
              exact ih

theorem foldl_alSet_fresh :
    ∀ (pairs acc : List (Val × Doc)),
      (∀ p ∈ pairs, ∀ q ∈ acc, valBeq q.1 p.1 = false) →
      List.Pairwise (fun a b : Val × Doc => valBeq a.1 b.1 = false) pairs →
      pairs.foldl (fun acc2 kv => alSet valBeq acc2 kv.1 kv.2) acc = acc ++ pairs := by
  intro pairs
  induction pairs with
  | nil => intro acc _ _; simp
  | cons p rest ih =>
      intro acc hfresh hpw
      obtain ⟨hp, hpt⟩ := List.pairwise_cons.mp hpw
      rw [List.foldl_cons]
      have h1 : alSet valBeq acc p.1 p.2 = acc ++ [p] := by
        rw [alSet_append_of_all_ne (fun kv hkv => hfresh p (List.mem_cons_self p rest) kv hkv)]
      rw [h1, ih (acc ++ [p]) ?_ hpt]
      · simp
      · intro q hq r hr
        rcases List.mem_append.mp hr with hr | hr
        · exact hfresh q (List.mem_cons_of_mem p hq) r hr
        · have : r = p := by simpa using hr
          subst this
          exact hp q hq

theorem find?_filter_of_imp :
    ∀ (l : List Doc) (p q : Doc → Bool), (∀ d, p d = true → q d = true) →
      (l.filter q).find? p = l.find? p := by
  intro l p q himp
  induction l with
  | nil => rfl
  | cons d l ih =>
      rw [List.filter_cons]
      cases hq : q d with
      | true =>
          simp only [if_true]
          cases hp : p d with
          | true =>
              rw [List.find?_cons_of_pos _ hp, List.find?_cons_of_pos _ hp]
          | false =>
              rw [List.find?_cons_of_neg _ (by simp [hp]),
                List.find?_cons_of_neg _ (by simp [hp])]
              exact ih
      | false =>
          simp only [Bool.false_eq_true, if_false]
          have hp : p d = false := by
            cases hpd : p d with
            | true => rw [himp d hpd] at hq; cases hq
            | false => rfl
          rw [List.find?_cons_of_neg _ (by simp [hp])]
          exact ih

/-- C4: mget_from_ids returns the matching documents reordered to match the
input ids order, omitting ids with no matching document (no placeholder, no
error): on the store holding A, B and C, the ids C, A, Z, B yield exactly C,
A, B; the asiter flag changes only the wrapping, never the element sequence;
and over every well-formed store and every id list the result equals the
reference reorder-and-omit form mgetSpec. -/
theorem C4_mget_reorders :
    (DocMongoBackend.mget_from_ids
        [[("_id", Val.vstr "A")], [("_id", Val.vstr "B")], [("_id", Val.vstr "C")]]
        [Val.vstr "C", Val.vstr "A", Val.vstr "Z", Val.vstr "B"] false =
      [[("_id", Val.vstr "C")], [("_id", Val.vstr "A")], [("_id", Val.vstr "B")]]) ∧
    (∀ coll ids a b, DocMongoBackend.mget_from_ids coll ids a =
        DocMongoBackend.mget_from_ids coll ids b) ∧
    (∀ coll ids asiter, DocMongoBackend.wfColl coll = true →
        DocMongoBackend.mget_from_ids coll ids asiter =
          DocMongoBackend.mgetSpec coll ids) := by
  refine ⟨rfl, ?_, ?_⟩
  · intro coll ids a b
    cases a <;> cases b <;> rfl
  · intro coll ids asiter hwf
    rw [DocMongoBackend.wfColl, Bool.and_eq_true] at hwf
    obtain ⟨hall, hdist⟩ := hwf
    have hone : DocMongoBackend.mget_from_ids coll ids asiter =
        ids.filterMap (fun i => alGet valBeq (DocMongoBackend.dictOfPairsV
          ((coll.filter (docMatchesIn ids)).filterMap
            (fun d => (idOfDoc d).map (fun v => (v, d))))) i) := by
      cases asiter <;> rfl
    rw [hone]
    have hpairs : List.Pairwise (fun a b : Val × Doc => valBeq a.1 b.1 = false)
        ((coll.filter (docMatchesIn ids)).filterMap
          (fun d => (idOfDoc d).map (fun v => (v, d)))) :=
      pairwise_filterMap_pairs _
        (pairwise_filter_of _ _ coll (distinctIds_pairwise hdist))
    have hdict : DocMongoBackend.dictOfPairsV
        ((coll.filter (docMatchesIn ids)).filterMap
          (fun d => (idOfDoc d).map (fun v => (v, d)))) =
        (coll.filter (docMatchesIn ids)).filterMap
          (fun d => (idOfDoc d).map (fun v => (v, d))) := by
      rw [DocMongoBackend.dictOfPairsV,
        foldl_alSet_fresh _ [] (fun p _ q hq => absurd hq (List.not_mem_nil q)) hpairs]
      rfl
    rw [hdict, DocMongoBackend.mgetSpec]
    apply filterMap_congr_mem
    intro i hi
    rw [alGet_pairs_eq_find i (coll.filter (docMatchesIn ids))]
    rw [find?_filter_of_imp coll (docMatchesId i) (docMatchesIn ids) ?_]
    intro d hd
    rw [docMatchesId] at hd
    rw [docMatchesIn]
    cases hido : idOfDoc d with
    | none => rw [hido] at hd; cases hd
    | some v =>
        rw [hido] at hd
        exact List.any_eq_true.mpr ⟨i, hi, hd⟩

/-- C4 witness: the reorder-and-omit equality instantiated on the concrete
store and id list, with the asiter flag set, the well-formedness hypothesis
discharged by evaluation. -/
theorem C4_witness :
    DocMongoBackend.mget_from_ids
        [[("_id", Val.vstr "A")], [("_id", Val.vstr "B")], [("_id", Val.vstr "C")]]
        [Val.vstr "C", Val.vstr "A", Val.vstr "Z", Val.vstr "B"] true =
      DocMongoBackend.mgetSpec
        [[("_id", Val.vstr "A")], [("_id", Val.vstr "B")], [("_id", Val.vstr "C")]]
        [Val.vstr "C", Val.vstr "A", Val.vstr "Z", Val.vstr "B"] :=
  C4_mget_reorders.2.2
    [[("_id", Val.vstr "A")], [("_id", Val.vstr "B")], [("_id", Val.vstr "C")]]
    [Val.vstr "C", Val.vstr "A", Val.vstr "Z", Val.vstr "B"] true rfl

theorem chunkStarts_nil {step : Nat} (hs : 0 < step) :
    DocMongoBackend.chunkStarts 0 step = [] := by
  rw [DocMongoBackend.chunkStarts]
  have h0 : (0 + step - 1) / step = 0 := Nat.div_eq_of_lt (by omega)
  rw [h0]
  rfl

theorem chunkStarts_pos {n step : Nat} (hs : 0 < step) (hn : 0 < n) :
    DocMongoBackend.chunkStarts n step =
      0 :: (DocMongoBackend.chunkStarts (n - step) step).map (fun i => i + step) := by
  rw [DocMongoBackend.chunkStarts, DocMongoBackend.chunkStarts]
  have hk : (n + step - 1) / step = (n - step + step - 1) / step + 1 := by
    rcases Nat.lt_or_ge n step with h | h
    · have h1 : n - step = 0 := Nat.sub_eq_zero_of_le (Nat.le_of_lt h)
      rw [h1]
      have h2 : (n + step - 1) / step = 1 := by
        apply Nat.div_eq_of_lt_le
        · omega
        · omega
      have h3 : (0 + step - 1) / step = 0 := Nat.div_eq_of_lt (by omega)
      omega
    · have h1 : n - step + step - 1 = n - 1 := by omega
      have h2 : n + step - 1 = (n - 1) + step := by omega
      rw [h1, h2, Nat.add_div_right _ hs]
  rw [hk, List.range_succ_eq_map, List.map_cons, List.map_map, List.map_map]
  refine congrArg₂ _ (by simp) ?_
  apply List.map_congr_left
  intro i _
  simp [Function.comp, Nat.succ_mul]

theorem chunksOf_nil {α : Type} {step : Nat} (hs : 0 < step) :
    DocMongoBackend.chunksOf ([] : List α) step = [] := by
  rw [DocMongoBackend.chunksOf, List.length_nil, chunkStarts_nil hs]
  rfl

theorem chunksOf_cons {α : Type} {ids : List α} {step : Nat} (hs : 0 < step)
    (hne : ids ≠ []) :
    DocMongoBackend.chunksOf ids step =
      ids.take step :: DocMongoBackend.chunksOf (ids.drop step) step := by
  rw [DocMongoBackend.chunksOf, DocMongoBackend.chunksOf,
    chunkStarts_pos hs (List.length_pos.mpr hne), List.map_cons, List.map_map,
    List.length_drop]
  refine congrArg₂ _ (by simp) ?_
  apply List.map_congr_left
  intro i _
  simp only [Function.comp]
  rw [Nat.add_comm i step, ← List.drop_drop]

theorem chunksOf_join {α : Type} {step : Nat} (hs : 0 < step) :
    ∀ ids : List α, (DocMongoBackend.chunksOf ids step).flatten = ids := by
  have H : ∀ (n : Nat) (ids : List α), ids.length ≤ n →
      (DocMongoBackend.chunksOf ids step).flatten = ids := by
    intro n
    induction n with
    | zero =>
        intro ids h
        have h2 : ids = [] := List.length_eq_zero.mp (Nat.le_zero.mp h)
        subst h2
        rw [chunksOf_nil hs]
        rfl
    | succ n ih =>
        intro ids h
        cases ids with
        | nil => rw [chunksOf_nil hs]; rfl
        | cons a as =>
            rw [chunksOf_cons hs (by simp), List.flatten_cons,
              ih ((a :: as).drop step) (by rw [List.length_drop]; simp at h ⊢; omega),
              List.take_append_drop]
  intro ids
  exact H ids.length ids (Nat.le_refl _)

theorem foldl_add_count (coll : DocMongoBackend.Coll) :
    ∀ (ls : List (List Val)) (x : Nat),
      ls.foldl (fun acc chunk => acc + DocMongoBackend.countIn coll chunk) x =
        x + (ls.map (DocMongoBackend.countIn coll)).sum := by
  intro ls
  induction ls with
  | nil => intro x; simp
  | cons c ls ih =>
      intro x
      rw [List.foldl_cons, ih, List.map_cons, List.sum_cons]
      omega

theorem docMatchesIn_append (xs ys : List Val) (d : Doc) :
    docMatchesIn (xs ++ ys) d = (docMatchesIn xs d || docMatchesIn ys d) := by
  rw [docMatchesIn, docMatchesIn, docMatchesIn]
  cases idOfDoc d with
  | none => rfl
  | some v => exact List.any_append

theorem docMatchesIn_nil (d : Doc) : docMatchesIn [] d = false := by
  rw [docMatchesIn]
  cases idOfDoc d <;> rfl

theorem countIn_nil_ids (coll : DocMongoBackend.Coll) :
    DocMongoBackend.countIn coll [] = 0 := by
  rw [DocMongoBackend.countIn,
    List.filter_eq_nil_iff.mpr (fun d _ => by simp [docMatchesIn_nil])]
  rfl

theorem docMatchesIn_iff_mem {ids : List Val} {d : Doc} :
    docMatchesIn ids d = true ↔ ∃ v, idOfDoc d = some v ∧ v ∈ ids := by
  rw [docMatchesIn]
  cases hido : idOfDoc d with
  | none => simp
  | some v =>
      simp only [List.any_eq_true]
      constructor
      · rintro ⟨i, hi, hbeq⟩
        have h2 := (valBeq_iff v i).mp hbeq
        subst h2
        exact ⟨v, rfl, hi⟩
      · rintro ⟨w, hw, hmem⟩
        injection hw with hw
        subst hw
        exact ⟨v, hmem, valBeq_refl v⟩

theorem countIn_cons (coll : DocMongoBackend.Coll) (d : Doc) (ids : List Val) :
    DocMongoBackend.countIn (d :: coll) ids =
      DocMongoBackend.countIn coll ids + (if docMatchesIn ids d then 1 else 0) := by
  rw [DocMongoBackend.countIn, DocMongoBackend.countIn, List.filter_cons]
  cases docMatchesIn ids d <;> simp

theorem countIn_append_disjoint (xs ys : List Val) :
    ∀ coll : DocMongoBackend.Coll,
      (∀ d ∈ coll, docMatchesIn xs d = true → docMatchesIn ys d = false) →
      DocMongoBackend.countIn coll (xs ++ ys) =
        DocMongoBackend.countIn coll xs + DocMongoBackend.countIn coll ys := by
  intro coll
  induction coll with
  | nil => intro _; rfl
  | cons d coll ih =>
      intro h
      have hd := h d (List.mem_cons_self d coll)
      have ht := ih (fun e he => h e (List.mem_cons_of_mem d he))
      rw [countIn_cons, countIn_cons, countIn_cons, ht, docMatchesIn_append]
      cases hx : docMatchesIn xs d with
      | true => rw [hd hx]; simp; omega
      | false => cases hy : docMatchesIn ys d <;> simp <;> omega

theorem noDupIds_iff : ∀ ids : List Val,
    DocMongoBackend.noDupIds ids = true ↔ ids.Nodup := by
  intro ids
  induction ids with
  | nil => simp [DocMongoBackend.noDupIds]
  | cons v vs ih =>
      rw [DocMongoBackend.noDupIds, Bool.and_eq_true, List.nodup_cons, ih]
      constructor
      · rintro ⟨h1, h2⟩
        refine ⟨fun hmem => ?_, h2⟩
        have h3 := List.all_eq_true.mp h1 v hmem
        simp [valBeq_refl] at h3
      · rintro ⟨h1, h2⟩
        refine ⟨List.all_eq_true.mpr (fun w hw => ?_), h2⟩
        have hne : v ≠ w := fun he => h1 (he ▸ hw)
        simp [(valBeq_eq_false_iff v w).mpr hne]

theorem count_from_ids_eq {step : Nat} (hs : 0 < step) :
    ∀ (ids : List Val) (coll : DocMongoBackend.Coll), ids.Nodup →
      DocMongoBackend.count_from_ids coll ids step = DocMongoBackend.countIn coll ids := by
  have H : ∀ (n : Nat) (ids : List Val) (coll : DocMongoBackend.Coll), ids.length ≤ n →
      ids.Nodup → DocMongoBackend.count_from_ids coll ids step =
        DocMongoBackend.countIn coll ids := by
    intro n
    induction n with
    | zero =>
        intro ids coll h hnd
        have h2 : ids = [] := List.length_eq_zero.mp (Nat.le_zero.mp h)
        subst h2
        rw [DocMongoBackend.count_from_ids, chunksOf_nil hs, countIn_nil_ids]
        rfl
    | succ n ih =>
        intro ids coll h hnd
        cases ids with
        | nil =>
            rw [DocMongoBackend.count_from_ids, chunksOf_nil hs, countIn_nil_ids]
            rfl
        | cons a as =>
            have hnd2 : (((a :: as).take step) ++ ((a :: as).drop step)).Nodup := by
              rw [List.take_append_drop]
              exact hnd
            rw [List.nodup_append] at hnd2
            have hrec : DocMongoBackend.count_from_ids coll ((a :: as).drop step) step =
                DocMongoBackend.countIn coll ((a :: as).drop step) :=
              ih ((a :: as).drop step) coll
                (by rw [List.length_drop]; simp at h ⊢; omega) hnd2.2.1
            rw [DocMongoBackend.count_from_ids] at hrec ⊢
            rw [chunksOf_cons hs (by simp), foldl_add_count, List.map_cons, List.sum_cons]
            rw [foldl_add_count, Nat.zero_add] at hrec
            rw [Nat.zero_add, hrec]
            have hdisj : ∀ d ∈ coll, docMatchesIn ((a :: as).take step) d = true →
                docMatchesIn ((a :: as).drop step) d = false := by
              intro d _ hx
              cases hy : docMatchesIn ((a :: as).drop step) d with
              | false => rfl
              | true =>
                  rcases docMatchesIn_iff_mem.mp hx with ⟨v, hv, hvt⟩
                  rcases docMatchesIn_iff_mem.mp hy with ⟨w, hw, hwt⟩
                  rw [hv] at hw
                  injection hw with hw
                  subst hw
                  exact absurd hwt (hnd2.2.2 hvt)
            rw [← countIn_append_disjoint _ _ coll hdisj, List.take_append_drop]
  intro ids coll hnd
  exact H ids.length ids coll (Nat.le_refl _) hnd

theorem all_not_eq_not_any {α : Type} (p : α → Bool) :
    ∀ l : List α, (l.all fun a => !p a) = !l.any p := by
  intro l
  induction l with
  | nil => rfl
  | cons a l ih =>
      rw [List.all_cons, List.any_cons, ih]
      cases p a <;> simp

theorem foldl_filter_chunks :
    ∀ (ls : List (List Val)) (c : List Doc),
      ls.foldl (fun c2 chunk => c2.filter (fun d => !docMatchesIn chunk d)) c =
        c.filter (fun d => ls.all (fun chunk => !docMatchesIn chunk d)) := by
  intro ls
  induction ls with
  | nil => intro c; simp
  | cons ch ls ih =>
      intro c
      rw [List.foldl_cons, ih, List.filter_filter]
      apply List.filter_congr
      intro d _
      rw [List.all_cons]
      cases docMatchesIn ch d <;> simp

theorem docMatchesIn_join (d : Doc) :
    ∀ ls : List (List Val),
      docMatchesIn ls.flatten d = ls.any (fun chunk => docMatchesIn chunk d) := by
  intro ls
  induction ls with
  | nil => rw [List.flatten_nil]; simp [docMatchesIn_nil]
  | cons ch ls ih =>
      rw [List.flatten_cons, docMatchesIn_append, ih]
      simp

theorem remove_from_ids_eq {step : Nat} (hs : 0 < step)
    (coll : DocMongoBackend.Coll) (ids : List Val) :
    DocMongoBackend.remove_from_ids coll ids step =
      coll.filter (fun d => !docMatchesIn ids d) := by
  rw [DocMongoBackend.remove_from_ids, foldl_filter_chunks]
  apply List.filter_congr
  intro d _
  have hj := chunksOf_join hs ids
  conv_rhs => rw [← hj]
  rw [docMatchesIn_join, ← all_not_eq_not_any]

/-- C6 (amended): for a positive step, count_from_ids issues exactly
ceil(len(ids)/step) per-chunk queries over consecutive slices whose
concatenation is ids; it returns the sum of the per-chunk counts, which
equals the single unchunked count whenever ids has no duplicate (a duplicated
id falling into two different chunks is counted once per chunk);
remove_from_ids chunks the same way and its aggregate effect always equals
the single unchunked removal. -/
theorem C6_chunking :
    ∀ (coll : DocMongoBackend.Coll) (ids : List Val) (step : Nat), 0 < step →
      (DocMongoBackend.chunksOf ids step).length = (ids.length + step - 1) / step ∧
      (DocMongoBackend.chunksOf ids step).flatten = ids ∧
      DocMongoBackend.remove_from_ids coll ids step =
        coll.filter (fun d => !docMatchesIn ids d) ∧
      (DocMongoBackend.noDupIds ids = true →
        DocMongoBackend.count_from_ids coll ids step =
          DocMongoBackend.countIn coll ids) := by
  intro coll ids step hs
  refine ⟨?_, chunksOf_join hs ids, remove_from_ids_eq hs coll ids, ?_⟩
  · rw [DocMongoBackend.chunksOf, DocMongoBackend.chunkStarts]
    simp
  · intro hnd
    exact count_from_ids_eq hs ids coll ((noDupIds_iff ids).mp hnd)

/-- C6 counterexample: on the store holding only the document with id A, the
id list A, A with step 1 makes two chunk queries that each count the same
document, so the chunked count is 2 while the single unchunked count is 1 —
the claimed unconditional equality fails. -/
theorem C6_counterexample :
    DocMongoBackend.count_from_ids [[("_id", Val.vstr "A")]]
        [Val.vstr "A", Val.vstr "A"] 1 = 2 ∧
    DocMongoBackend.countIn [[("_id", Val.vstr "A")]] [Val.vstr "A", Val.vstr "A"] = 1 ∧
    DocMongoBackend.count_from_ids [[("_id", Val.vstr "A")]]
        [Val.vstr "A", Val.vstr "A"] 1 ≠
      DocMongoBackend.countIn [[("_id", Val.vstr "A")]] [Val.vstr "A", Val.vstr "A"] := by
  refine ⟨rfl, rfl, ?_⟩
  intro h
  rw [show DocMongoBackend.count_from_ids [[("_id", Val.vstr "A")]]
        [Val.vstr "A", Val.vstr "A"] 1 = 2 from rfl,
      show DocMongoBackend.countIn [[("_id", Val.vstr "A")]]
        [Val.vstr "A", Val.vstr "A"] = 1 from rfl] at h
  cases h

/-- C6 witness: with step 2 and five duplicate-free ids, exactly three chunk
queries are made and the chunked count equals the unchunked count, on a
concrete store. -/
theorem C6_witness :
    (DocMongoBackend.chunksOf
      [Val.vstr "a", Val.vstr "b", Val.vstr "c", Val.vstr "d", Val.vstr "e"] 2).length = 3 ∧
    DocMongoBackend.count_from_ids [[("_id", Val.vstr "c")]]
        [Val.vstr "a", Val.vstr "b", Val.vstr "c", Val.vstr "d", Val.vstr "e"] 2 =
      DocMongoBackend.countIn [[("_id", Val.vstr "c")]]
        [Val.vstr "a", Val.vstr "b", Val.vstr "c", Val.vstr "d", Val.vstr "e"] := by
  have h := C6_chunking [[("_id", Val.vstr "c")]]
      [Val.vstr "a", Val.vstr "b", Val.vstr "c", Val.vstr "d", Val.vstr "e"] 2
      (by decide)
  exact ⟨h.1, h.2.2.2 rfl⟩

theorem forall2_mem_right {α β : Type} {R : α → β → Prop} :
    ∀ {l : List α} {l2 : List β}, List.Forall₂ R l l2 → ∀ b ∈ l2, ∃ a ∈ l, R a b := by
  intro l l2 h
  induction h with
  | nil => intro b hb; cases hb
  | cons hr ht ih =>
      intro b hb
      rcases List.mem_cons.mp hb with hb | hb
      · exact ⟨_, List.mem_cons_self _ _, hb ▸ hr⟩
      · rcases ih b hb with ⟨a, ha, har⟩
        exact ⟨a, List.mem_cons_of_mem _ ha, har⟩

theorem forall2_mem_left {α β : Type} {R : α → β → Prop} :
    ∀ {l : List α} {l2 : List β}, List.Forall₂ R l l2 → ∀ a ∈ l, ∃ b ∈ l2, R a b := by
  intro l l2 h
  induction h with
  | nil => intro a ha; cases ha
  | cons hr ht ih =>
      intro a ha
      rcases List.mem_cons.mp ha with ha | ha
      · exact ⟨_, List.mem_cons_self _ _, ha ▸ hr⟩
      · rcases ih a ha with ⟨b, hb, hbr⟩
        exact ⟨b, List.mem_cons_of_mem _ hb, hbr⟩

theorem trimEntries_forall2 {s : List Nat} :
    ∀ {l l2 : List (String × Doc)}, DocCouchDBBackend.trimEntries s l = some l2 →
      List.Forall₂ (fun kv kv2 : String × Doc =>
        kv2.1 = kv.1 ∧ DocCouchDBBackend.trimDoc s kv.2 = some kv2.2) l l2 := by
  intro l
  induction l with
  | nil =>
      intro l2 h
      rw [DocCouchDBBackend.trimEntries] at h
      injection h with h2
      subst h2
      exact List.Forall₂.nil
  | cons kv l ih =>
      obtain ⟨k, d⟩ := kv
      intro l2 h
      rw [DocCouchDBBackend.trimEntries] at h
      cases hd : DocCouchDBBackend.trimDoc s d with
      | none => rw [hd] at h; cases h
      | some d2 =>
          rw [hd] at h
          cases hr : DocCouchDBBackend.trimEntries s l with
          | none => rw [hr] at h; cases h
          | some rest2 =>
              rw [hr] at h
              dsimp only at h
              injection h with h2
              subst h2
              exact List.Forall₂.cons ⟨rfl, hd⟩ (ih hr)

theorem forall2_map_fst {s : List Nat} :
    ∀ {l l2 : List (String × Doc)},
      List.Forall₂ (fun kv kv2 : String × Doc =>
        kv2.1 = kv.1 ∧ DocCouchDBBackend.trimDoc s kv.2 = some kv2.2) l l2 →
      l2.map Prod.fst = l.map Prod.fst := by
  intro l l2 h
  induction h with
  | nil => rfl
  | cons hr ht ih => simp [ih, hr.1]

theorem alGet_of_forall2 {s : List Nat} :
    ∀ (l : List (String × Doc)) {l2 : List (String × Doc)},
      List.Forall₂ (fun kv kv2 : String × Doc =>
        kv2.1 = kv.1 ∧ DocCouchDBBackend.trimDoc s kv.2 = some kv2.2) l l2 →
      ∀ k, alGet strBeq l2 k =
        (alGet strBeq l k).bind (DocCouchDBBackend.trimDoc s) := by
  intro l
  induction l with
  | nil =>
      intro l2 h k
      cases h
      rfl
  | cons kv l ih =>
      intro l2 h k
      cases h with
      | cons hr ht =>
          obtain ⟨k1, d1⟩ := kv
          rename_i kv2 rest2
          obtain ⟨k2, d2⟩ := kv2
          obtain ⟨hkey, htrim⟩ := hr
          dsimp only at hkey htrim
          subst hkey
          rw [alGet, alGet]
          cases hb : strBeq k2 k with
          | true => simp [hb, htrim]
          | false => simp [hb, ih ht k]

theorem trimDoc_pyGet_ne {s : List Nat} {d d2 : Doc} {k : String}
    (hk : k ≠ "homologene") (h : DocCouchDBBackend.trimDoc s d = some d2) :
    pyGet d2 k = pyGet d k := by
  rw [DocCouchDBBackend.trimDoc] at h
  cases hh : pyGet d "homologene" with
  | none =>
      rw [hh] at h
      dsimp only at h
      injection h with h2
      subst h2
      rfl
  | some hv =>
      rw [hh] at h
      dsimp only at h
      cases htr : pyTruthy hv with
      | false =>
          rw [if_neg (by simp [htr])] at h
          injection h with h2
          subst h2
          rfl
      | true =>
          rw [if_pos htr] at h
          cases hv with
          | vnat x => cases h
          | vstr x => cases h
          | vlist x => cases h
          | vdict hgene =>
              dsimp only at h
              cases hg : pyGet hgene "genes" with
              | none =>
                  rw [hg] at h
                  dsimp only at h
                  injection h with h2
                  subst h2
                  rfl
              | some gv =>
                  rw [hg] at h
                  dsimp only at h
                  cases htg : pyTruthy gv with
                  | false =>
                      rw [if_neg (by simp [htg])] at h
                      injection h with h2
                      subst h2
                      rfl
                  | true =>
                      rw [if_pos htg] at h
                      cases gv with
                      | vnat x => cases h
                      | vstr x => cases h
                      | vdict x => cases h
                      | vlist genes =>
                          dsimp only at h
                          cases hf : DocCouchDBBackend.filterGenes s genes with
                          | none => rw [hf] at h; cases h
                          | some filtered =>
                              rw [hf] at h
                              dsimp only at h
                              injection h with h2
                              subst h2
                              exact pyGet_pySet_ne d _ hk

theorem alGet_db_upload_skip :
    ∀ (rest : List (String × Doc)) (acc : List (String × Doc)) (k : String),
      (∀ kv ∈ rest, pyGet kv.2 "_id" = some (Val.vstr kv.1)) →
      (∀ kv ∈ rest, kv.1 ≠ k) →
      alGet strBeq (DocCouchDBBackend.db_upload acc (rest.map Prod.snd)) k =
        alGet strBeq acc k := by
  intro rest
  induction rest with
  | nil => intro acc k _ _; rfl
  | cons kv rest ih =>
      obtain ⟨k1, e1⟩ := kv
      intro acc k hids hne
      have hid1 : pyGet e1 "_id" = some (Val.vstr k1) :=
        hids (k1, e1) (List.mem_cons_self _ _)
      rw [List.map_cons, DocCouchDBBackend.db_upload, List.foldl_cons]
      dsimp only
      rw [hid1]
      rw [← DocCouchDBBackend.db_upload,
        ih (alSet strBeq acc k1 e1) k
          (fun kv hkv => hids kv (List.mem_cons_of_mem _ hkv))
          (fun kv hkv => hne kv (List.mem_cons_of_mem _ hkv)),
        alGet_alSet_ne (fun a b h2 => (strBeq_iff a b).mp h2) acc e1
          (fun he => hne (k1, e1) (List.mem_cons_self _ _) he.symm)]

theorem alGet_db_upload :
    ∀ (l2 : List (String × Doc)) (db : List (String × Doc)) (k : String) (d2 : Doc),
      (∀ kv ∈ l2, pyGet kv.2 "_id" = some (Val.vstr kv.1)) →
      (l2.map Prod.fst).Nodup →
      (k, d2) ∈ l2 →
      alGet strBeq (DocCouchDBBackend.db_upload db (l2.map Prod.snd)) k = some d2 := by
  intro l2
  induction l2 with
  | nil => intro db k d2 _ _ hmem; cases hmem
  | cons kv l2 ih =>
      obtain ⟨k1, e1⟩ := kv
      intro db k d2 hids hnd hmem
      have hid1 : pyGet e1 "_id" = some (Val.vstr k1) :=
        hids (k1, e1) (List.mem_cons_self _ _)
      rw [List.map_cons, DocCouchDBBackend.db_upload, List.foldl_cons]
      dsimp only
      rw [hid1, ← DocCouchDBBackend.db_upload]
      rw [List.map_cons, List.nodup_cons] at hnd
      rcases List.mem_cons.mp hmem with hmem | hmem
      · injection hmem with hmk hmd
        subst hmk
        subst hmd
        rw [alGet_db_upload_skip l2 _ k
            (fun kv hkv => hids kv (List.mem_cons_of_mem _ hkv))
            (fun kv hkv he => hnd.1 (List.mem_map.mpr ⟨kv, hkv, he⟩))]
        exact alGet_alSet_self (strBeq_refl k) db d2
      · exact ih (alSet strBeq db k1 e1) k d2
          (fun kv hkv => hids kv (List.mem_cons_of_mem _ hkv)) hnd.2 hmem

/-- C1 (amended): on the replicated-store backend with a fresh cache, for a
stored document and a patch p that does not rebind the _id field, update(id,
p) buffers p only in the local cache: the underlying database is untouched
and get_from_id still returns the stored document without p applied; and
whenever finalize succeeds, get_from_id afterwards returns the stored
document with p merged in and the homologene-trimming filter applied to the
merged document (exactly the merged document whenever the filter does not
touch it). -/
theorem C1_couch_update_buffering :
    ∀ (db : List (String × Doc)) (id : String) (doc p : Doc),
      alGet strBeq db id = some doc →
      (∀ kv ∈ db, pyGet kv.2 "_id" = some (Val.vstr kv.1)) →
      (db.map Prod.fst).Nodup →
      pyGet p "_id" = none →
      (DocCouchDBBackend.update ⟨db, []⟩ id p).target_db = db ∧
      DocCouchDBBackend.get_from_id (DocCouchDBBackend.update ⟨db, []⟩ id p) id =
        some doc ∧
      ∀ st2, DocCouchDBBackend.finalize (DocCouchDBBackend.update ⟨db, []⟩ id p) =
          some st2 →
        DocCouchDBBackend.get_from_id st2 id =
          DocCouchDBBackend.trimDoc DocCouchDBBackend.speciesLi (pyUpdate doc p) := by
  intro db id doc p h1 hwf hnd hp
  have hsound : ∀ a b : String, strBeq a b = true → a = b :=
    fun a b h => (strBeq_iff a b).mp h
  have hmem : (id, doc) ∈ db := alGet_mem hsound h1
  have hdocid : pyGet doc "_id" = some (Val.vstr id) := hwf (id, doc) hmem
  have hdocne : doc.isEmpty = false := by
    cases doc with
    | nil => rw [pyGet, alGet] at hdocid; cases hdocid
    | cons kv d => rfl
  have hupd : DocCouchDBBackend.update ⟨db, []⟩ id p =
      ⟨db, alSet strBeq db id (pyUpdate doc p)⟩ := by
    simp only [DocCouchDBBackend.update, DocCouchDBBackend.view_all_docs,
      List.isEmpty_nil, if_true, h1, hdocne, Bool.false_eq_true, if_false]
  refine ⟨by rw [hupd], by rw [hupd, DocCouchDBBackend.get_from_id]; exact h1, ?_⟩
  intro st2 hfin
  rw [hupd] at hfin
  have hmergedid : pyGet (pyUpdate doc p) "_id" = some (Val.vstr id) := by
    rw [pyGet_pyUpdate_of_none doc hp]
    exact hdocid
  have hcne : alSet strBeq db id (pyUpdate doc p) ≠ [] := alSet_ne_nil _ _ _
  have hlen : 0 < (alSet strBeq db id (pyUpdate doc p)).length :=
    List.length_pos.mpr hcne
  have hie : (alSet strBeq db id (pyUpdate doc p)).isEmpty = false := by
    cases hq : alSet strBeq db id (pyUpdate doc p) with
    | nil => exact absurd hq hcne
    | cons kv l => rfl
  rw [DocCouchDBBackend.finalize] at hfin
  dsimp only at hfin
  rw [if_pos hlen, DocCouchDBBackend.homologene_trimming,
    if_neg (by simp [hie])] at hfin
  cases htr : DocCouchDBBackend.trimEntries DocCouchDBBackend.speciesLi
      (alSet strBeq db id (pyUpdate doc p)) with
  | none => rw [htr] at hfin; cases hfin
  | some l2 =>
      rw [htr] at hfin
      dsimp only at hfin
      injection hfin with h2
      subst h2
      rw [DocCouchDBBackend.get_from_id]
      dsimp only
      have hf2 := trimEntries_forall2 htr
      have hglookup : alGet strBeq l2 id =
          (alGet strBeq (alSet strBeq db id (pyUpdate doc p)) id).bind
            (DocCouchDBBackend.trimDoc DocCouchDBBackend.speciesLi) :=
        alGet_of_forall2 _ hf2 id
      rw [alGet_alSet_self (strBeq_refl id), Option.some_bind] at hglookup
      cases htd : DocCouchDBBackend.trimDoc DocCouchDBBackend.speciesLi
          (pyUpdate doc p) with
      | none =>
          have hmem2 : (id, pyUpdate doc p) ∈ alSet strBeq db id (pyUpdate doc p) :=
            alGet_mem hsound (alGet_alSet_self (strBeq_refl id) db _)
          rcases forall2_mem_left hf2 _ hmem2 with ⟨kv2, _, hkey, htrim⟩
          rw [htd] at htrim
          cases htrim
      | some t =>
          rw [htd] at hglookup
          have hwf2 : ∀ kv ∈ alSet strBeq db id (pyUpdate doc p),
              pyGet kv.2 "_id" = some (Val.vstr kv.1) := by
            intro kv hkv
            rcases mem_alSet hsound hkv with hkv | hkv
            · exact hwf kv hkv
            · subst hkv
              exact hmergedid
          have hwfl2 : ∀ kv2 ∈ l2, pyGet kv2.2 "_id" = some (Val.vstr kv2.1) := by
            intro kv2 hkv2
            rcases forall2_mem_right hf2 kv2 hkv2 with ⟨kv, hkv, hkey, htrim⟩
            rw [trimDoc_pyGet_ne (by decide) htrim, hwf2 kv hkv, hkey]
          have hndl2 : (l2.map Prod.fst).Nodup := by
            rw [forall2_map_fst hf2, map_fst_alSet_of_get_some h1]
            exact hnd
          exact alGet_db_upload l2 db id t hwfl2 hndl2 (alGet_mem hsound hglookup)

/-- C1 counterexample to the original claim: for the stored document with id
A carrying a homologene genes entry for the foreign taxon 1234, after
update with the patch adding note 7 and a successful finalize, get_from_id
returns the merged document with its genes list emptied by the trimming
step, not the document with the patch merged in: the two differ. -/
theorem C1_counterexample :
    DocCouchDBBackend.finalize
        (DocCouchDBBackend.update
          ⟨[("A", [("_id", Val.vstr "A"),
                   ("homologene", Val.vdict [("genes",
                      Val.vlist [Val.vlist [Val.vnat 1234]])])])], []⟩
          "A" [("note", Val.vnat 7)]) =
      some ⟨[("A", [("_id", Val.vstr "A"),
                    ("homologene", Val.vdict [("genes", Val.vlist [])]),
                    ("note", Val.vnat 7)])], []⟩ ∧
    DocCouchDBBackend.get_from_id
        (⟨[("A", [("_id", Val.vstr "A"),
                  ("homologene", Val.vdict [("genes", Val.vlist [])]),
                  ("note", Val.vnat 7)])], []⟩ : DocCouchDBBackend.Backend) "A" =
      some [("_id", Val.vstr "A"),
            ("homologene", Val.vdict [("genes", Val.vlist [])]),
            ("note", Val.vnat 7)] ∧
    [("_id", Val.vstr "A"),
     ("homologene", Val.vdict [("genes", Val.vlist [])]),
     ("note", Val.vnat 7)] ≠
      pyUpdate [("_id", Val.vstr "A"),
                ("homologene", Val.vdict [("genes",
                   Val.vlist [Val.vlist [Val.vnat 1234]])])]
        [("note", Val.vnat 7)] :=
  ⟨rfl, rfl, fun h => absurd ((valDictBeq_iff _ _).mpr h) (by decide)⟩

/-- C1 witness: a concrete run of the amended theorem on a store holding a
document without a homologene field: before finalize the store is untouched
and returns the document without the patch; after finalize it returns the
merged document, which the trimming step leaves unchanged. -/
theorem C1_witness :
    (DocCouchDBBackend.update
        ⟨[("B", [("_id", Val.vstr "B"), ("x", Val.vnat 1)])], []⟩
        "B" [("y", Val.vnat 2)]).target_db =
      [("B", [("_id", Val.vstr "B"), ("x", Val.vnat 1)])] ∧
    DocCouchDBBackend.get_from_id
        (DocCouchDBBackend.update
          ⟨[("B", [("_id", Val.vstr "B"), ("x", Val.vnat 1)])], []⟩
          "B" [("y", Val.vnat 2)]) "B" =
      some [("_id", Val.vstr "B"), ("x", Val.vnat 1)] ∧
    DocCouchDBBackend.get_from_id
        (⟨[("B", [("_id", Val.vstr "B"), ("x", Val.vnat 1), ("y", Val.vnat 2)])], []⟩ :
          DocCouchDBBackend.Backend) "B" =
      DocCouchDBBackend.trimDoc DocCouchDBBackend.speciesLi
        (pyUpdate [("_id", Val.vstr "B"), ("x", Val.vnat 1)] [("y", Val.vnat 2)]) := by
  have h := C1_couch_update_buffering
      [("B", [("_id", Val.vstr "B"), ("x", Val.vnat 1)])] "B"
      [("_id", Val.vstr "B"), ("x", Val.vnat 1)] [("y", Val.vnat 2)]
      rfl
      (by
        intro kv hkv
        rw [List.mem_singleton] at hkv
        subst hkv
        rfl)
      (by simp)
      rfl
  exact ⟨h.1, h.2.1, h.2.2
    ⟨[("B", [("_id", Val.vstr "B"), ("x", Val.vnat 1), ("y", Val.vnat 2)])], []⟩ rfl⟩
